import Mathlib

/-!
# Chemical Safety Hub: validation gate, section parser and autocomplete

A shallow embedding of the three source files of the repository

* `backend/server.js`       the `POST /api/analyze` handler and its input validation,
* `backend/geminiClient.js` `parseResponse`, the markdown section splitter,
* `frontend/script.js`      the autocomplete `input` and `keydown` listeners,

followed by the properties established for them.

JavaScript strings are sequences of UTF-16 code units, so a string is a list of
natural numbers here.  The built-in operations the program calls (`trim`,
`includes`, `split`, `join`, `slice`) are defined on such lists.  The Unicode
lowercase table behind `toLowerCase` is not part of the repository: it is taken as
a parameter `CaseMap`, constrained only on ASCII text, and `asciiCase` is the
instance used for concrete evaluation.
-/

namespace ChemSafety

/-! ## JavaScript strings -/

/-- A JavaScript string, as the list of its UTF-16 code units. -/
abbrev JSString := List Nat

/-- The code units of a literal; used with ASCII literals only. -/
def js (s : String) : JSString := s.toList.map Char.toNat

/-- The code units that `String.prototype.trim` strips: ECMAScript `WhiteSpace`
and `LineTerminator`. -/
def isWhiteSpace (c : Nat) : Bool :=
  c == 9 || c == 10 || c == 11 || c == 12 || c == 13 || c == 32 || c == 160 ||
  c == 5760 || (8192 ≤ c && c ≤ 8202) || c == 8232 || c == 8233 || c == 8239 ||
  c == 8287 || c == 12288 || c == 65279

/-- The method `String.prototype.trimStart`. -/
def trimStart (s : JSString) : JSString := s.dropWhile isWhiteSpace

/-- The method `String.prototype.trimEnd`. -/
def trimEnd (s : JSString) : JSString := (s.reverse.dropWhile isWhiteSpace).reverse

/-- The method `String.prototype.trim`. -/
def trim (s : JSString) : JSString := trimStart (trimEnd s)

/-- The method `String.prototype.includes`: `sub` occurs in `s` as a contiguous substring. -/
def includes (s sub : JSString) : Bool := s.tails.any (fun t => sub.isPrefixOf t)

/-- Lowercasing of one ASCII code unit. -/
def asciiLower (c : Nat) : Nat := if 65 ≤ c ∧ c ≤ 90 then c + 32 else c

/-- The built-in `String.prototype.toLowerCase`.  Its Unicode table is outside the
repository; it is constrained on ASCII text only: an all-ASCII string is lowercased
letter by letter, and an ASCII stretch inside any string is lowercased in place. -/
structure CaseMap where
  toLowerCase : JSString → JSString
  toLowerCase_ascii : ∀ w : JSString, (∀ c ∈ w, c < 128) → toLowerCase w = w.map asciiLower
  toLowerCase_infix : ∀ p w q : JSString, (∀ c ∈ w, c < 128) →
    w.map asciiLower <:+: toLowerCase (p ++ w ++ q)

/-! ## `backend/server.js` -/

/-- The five named sections returned by `parseResponse`. -/
structure AnalysisResult where
  productSummary : JSString
  chemicalComponents : JSString
  safeUsage : JSString
  improperUse : JSString
  environmental : JSString
deriving DecidableEq, Repr

/-- A value of a parsed JSON request body, with `undefined` for an absent property.
A number is kept as its truthiness (false for zero), which is all the handler reads. -/
inductive JSValue where
  | undefined
  | null
  | bool (b : Bool)
  | number (nonzero : Bool)
  | string (s : JSString)
  | array (items : List JSValue)
  | object (fields : List (JSString × JSValue))

/-- JavaScript truthiness, as tested by `!productName`. -/
def JSValue.truthy : JSValue → Bool
  | .undefined => false
  | .null => false
  | .bool b => b
  | .number nz => nz
  | .string s => !s.isEmpty
  | .array _ => true
  | .object _ => true

/-- The operator `typeof`. -/
def JSValue.typeof : JSValue → String
  | .undefined => "undefined"
  | .null => "object"
  | .bool _ => "boolean"
  | .number _ => "number"
  | .string _ => "string"
  | .array _ => "object"
  | .object _ => "object"

/-- The binding made by `const { productName } = req.body` when the destructuring
succeeds: the value of the property, `undefined` when `req.body` has none. -/
structure RequestBody where
  productName : JSValue

/-- The destructuring `const { productName } = req.body`.  It throws a TypeError when
`req.body` is `undefined` or `null`; on an object it reads the property (the last
binding of a repeated key, as `JSON.parse` keeps it); an array or a primitive has no such
property. -/
def destructureBody : JSValue → Except Unit RequestBody
  | .undefined => .error ()
  | .null => .error ()
  | .object fields => .ok ⟨(fields.reverse.lookup (js "productName")).getD .undefined⟩
  | _ => .ok ⟨.undefined⟩

/-- The JSON payload of a response. -/
inductive Payload where
  | error (message : String)
  | success (data : AnalysisResult)
deriving DecidableEq

/-- An HTTP response: status code and JSON payload. -/
structure Response where
  status : Nat
  payload : Payload
deriving DecidableEq

/-- The constant `suspiciousTerms` of the handler. -/
def suspiciousTerms : List JSString :=
  [js "bomb", js "explosive", js "weapon", js "poison", js "synthesis"]

/-- The handler `app.post('/api/analyze')` from the input validation on, that is after
`const { productName } = req.body` has bound `productName`.  `analyzeProduct` is the
generative client, which either returns sections or throws.  The result is the response
together with the list of names the generative client was called with. -/
def postAnalyze (L : CaseMap) (analyzeProduct : JSString → Except Unit AnalysisResult)
    (body : RequestBody) : Response × List JSString :=
  let productName := body.productName
  if !productName.truthy || productName.typeof != "string" then
    (⟨400, .error "Product name is required"⟩, [])
  else
    match productName with
    | .string s =>
      if (trim s).length < 2 then
        (⟨400, .error "Product name is too short"⟩, [])
      else if s.length > 100 then
        (⟨400, .error "Product name is too long"⟩, [])
      else
        let lowerProduct := L.toLowerCase s
        if suspiciousTerms.any (fun term => includes lowerProduct term) then
          (⟨400, .error "Unable to analyze this product"⟩, [])
        else
          match analyzeProduct s with
          | .ok result => (⟨200, .success result⟩, [s])
          | .error _ =>
            (⟨500, .error "Unable to analyze product at the moment. Please try again later."⟩, [s])
    | _ =>
      -- `productName.trim` is not a function: the TypeError lands in the `catch`
      (⟨500, .error "Unable to analyze product at the moment. Please try again later."⟩, [])

/-- The whole handler `app.post('/api/analyze')` on the value of `req.body`: the
destructuring stands inside the `try`, so its TypeError lands in the `catch`, which answers
500; otherwise the validation and the call follow. -/
def analyzeRoute (L : CaseMap) (analyzeProduct : JSString → Except Unit AnalysisResult)
    (reqBody : JSValue) : Response × List JSString :=
  match destructureBody reqBody with
  | .error _ =>
    (⟨500, .error "Unable to analyze product at the moment. Please try again later."⟩, [])
  | .ok body => postAnalyze L analyzeProduct body

/-- The ASCII instance of `CaseMap`: every code unit is lowercased on its own. -/
def asciiCase : CaseMap where
  toLowerCase := fun s => s.map asciiLower
  toLowerCase_ascii := fun _ _ => rfl
  toLowerCase_infix := fun p w q _ => by
    refine ⟨p.map asciiLower, q.map asciiLower, ?_⟩
    simp [List.map_append]

/-- A generative client that answers every name with five empty sections. -/
def stubClient : JSString → Except Unit AnalysisResult :=
  fun _ => .ok ⟨[], [], [], [], []⟩

/-- The request-validation contract in the words of the specification: a non-empty
string of trimmed length at least 2 and raw length at most 100 whose lowercase form
contains none of the five denylisted words. -/
def ValidName (L : CaseMap) (v : JSValue) : Prop :=
  ∃ s, v = .string s ∧ s ≠ [] ∧ 2 ≤ (trim s).length ∧ s.length ≤ 100 ∧
    ∀ t ∈ [js "bomb", js "explosive", js "weapon", js "poison", js "synthesis"],
      ¬ t <:+: L.toLowerCase s

/-- A request passes the validation contract: `req.body` can be destructured and its
`productName` is a valid name. -/
def ValidRequest (L : CaseMap) (reqBody : JSValue) : Prop :=
  ∃ body, destructureBody reqBody = .ok body ∧ ValidName L body.productName

/-! ## `backend/geminiClient.js` -/

/-- Worker of `split`: walks the string; `skip` counts the code units of a separator
match that are still to be passed over. -/
def splitGo (sep : JSString) : JSString → Nat → List JSString
  | [], _ => [[]]
  | _ :: cs, skip + 1 => splitGo sep cs skip
  | c :: cs, 0 =>
    if sep.isPrefixOf (c :: cs) then [] :: splitGo sep cs (sep.length - 1)
    else
      match splitGo sep cs 0 with
      | [] => [[c]]
      | h :: t => (c :: h) :: t

/-- The method `String.prototype.split` with a non-empty separator string: the pieces
between successive leftmost, non-overlapping occurrences of `sep`. -/
def split (s sep : JSString) : List JSString := splitGo sep s 0

/-- The method `Array.prototype.join`. -/
def join : List JSString → JSString → JSString
  | [], _ => []
  | [a], _ => a
  | a :: b :: rest, sep => a ++ sep ++ join (b :: rest) sep

/-- The initial value of `sections` in `parseResponse`. -/
def emptySections : AnalysisResult := ⟨[], [], [], [], []⟩

/-- The body of the `parts.forEach` callback of `parseResponse`, acting on the sections
accumulated so far.  Reading `lines[0]` of an empty array would give `undefined`, on which
`toLowerCase` throws. -/
def parsePart (L : CaseMap) (sections : AnalysisResult) (part : JSString) :
    Except String AnalysisResult :=
  let lines := split (trim part) (js "\n")
  match lines.head? with
  | none => .error "TypeError: lines[0] is undefined"
  | some line0 =>
    let header := L.toLowerCase line0
    let content := trim (join (lines.drop 1) (js "\n"))
    if includes header (js "product summary") then
      .ok { sections with productSummary := content }
    else if includes header (js "chemical component") then
      .ok { sections with chemicalComponents := content }
    else if includes header (js "safe usage") || includes header (js "usage guideline") then
      .ok { sections with safeUsage := content }
    else if includes header (js "improper use") || includes header (js "effects") then
      .ok { sections with improperUse := content }
    else if includes header (js "environmental") then
      .ok { sections with environmental := content }
    else
      .ok sections

/-- The array `parts` of `parseResponse`: the pieces between `##` markers whose trimmed
form is non-empty. -/
def responseParts (text : JSString) : List JSString :=
  (split text (js "##")).filter (fun part => !(trim part).isEmpty)

/-- The function `parseResponse`. -/
def parseResponse (L : CaseMap) (text : JSString) : Except String AnalysisResult :=
  (responseParts text).foldlM (parsePart L) emptySections

/-! ### The parser in the words of the specification -/

/-- The five fields of an `AnalysisResult`. -/
inductive Field where
  | productSummary
  | chemicalComponents
  | safeUsage
  | improperUse
  | environmental
deriving DecidableEq, Repr

/-- All five fields, in the order of the prompt. -/
def Field.all : List Field :=
  [.productSummary, .chemicalComponents, .safeUsage, .improperUse, .environmental]

/-- Reading a field of the record. -/
def AnalysisResult.get (r : AnalysisResult) : Field → JSString
  | .productSummary => r.productSummary
  | .chemicalComponents => r.chemicalComponents
  | .safeUsage => r.safeUsage
  | .improperUse => r.improperUse
  | .environmental => r.environmental

/-- Overwriting a field of the record. -/
def AnalysisResult.set (r : AnalysisResult) (f : Field) (v : JSString) : AnalysisResult :=
  match f with
  | .productSummary => { r with productSummary := v }
  | .chemicalComponents => { r with chemicalComponents := v }
  | .safeUsage => { r with safeUsage := v }
  | .improperUse => { r with improperUse := v }
  | .environmental => { r with environmental := v }

/-- The keyword substrings recognised for each field. -/
def Field.keywords : Field → List JSString
  | .productSummary => [js "product summary"]
  | .chemicalComponents => [js "chemical component"]
  | .safeUsage => [js "safe usage", js "usage guideline"]
  | .improperUse => [js "improper use", js "effects"]
  | .environmental => [js "environmental"]

/-- A lowercased header carries a keyword of the field. -/
def Field.matchesHeader (f : Field) (header : JSString) : Bool :=
  f.keywords.any (fun k => includes header k)

/-- The field a lowercased header selects: the first one, in the priority order product
summary, chemical component, safe usage or usage guideline, improper use or effects,
environmental, one of whose keywords the header contains. -/
def selectField (header : JSString) : Option Field :=
  Field.all.find? (fun f => f.matchesHeader header)

/-- The lowercased header of a fragment: the first line of its trimmed text. -/
def headerOf (L : CaseMap) (part : JSString) : JSString :=
  L.toLowerCase ((split (trim part) (js "\n")).headD [])

/-- The content of a fragment: what follows the first line of its trimmed text, trimmed. -/
def contentOf (part : JSString) : JSString :=
  trim (join ((split (trim part) (js "\n")).drop 1) (js "\n"))

/-- The effect of one fragment on the sections: the content goes to the field the header
selects, and nothing changes when it selects none. -/
def applyPart (L : CaseMap) (sections : AnalysisResult) (part : JSString) : AnalysisResult :=
  match selectField (headerOf L part) with
  | some f => sections.set f (contentOf part)
  | none => sections

/-- The last fragment, in text order, whose header selects the field. -/
def lastSelecting (L : CaseMap) (parts : List JSString) (f : Field) : Option JSString :=
  parts.reverse.find? (fun part => decide (selectField (headerOf L part) = some f))

/-- The canonical level-2 header title of each field. -/
def Field.title : Field → JSString
  | .productSummary => js "Product Summary"
  | .chemicalComponents => js "Common Chemical Components"
  | .safeUsage => js "Safe Usage Guidelines"
  | .improperUse => js "Effects of Improper Use"
  | .environmental => js "Environmental Considerations"

/-- What follows the `##` marker in the section of a field: a blank, the title, a line
feed and the body. -/
def fragment (body : Field → JSString) (f : Field) : JSString :=
  js " " ++ f.title ++ js "\n" ++ body f

/-- One section of a well-formed response: the header line `## Title` and the body. -/
def sectionText (body : Field → JSString) (f : Field) : JSString :=
  js "## " ++ f.title ++ js "\n" ++ body f

/-- A response text made of the sections of the listed fields, in the listed order. -/
def responseText (order : List Field) (body : Field → JSString) : JSString :=
  (order.map (sectionText body)).flatten

/-- A body after which a header line can start: it is empty or ends with a line feed. -/
def EndsLine (b : JSString) : Prop := b = [] ∨ b.getLast? = some 10

/-- A sample ordering of the five sections. -/
def sampleOrder : List Field :=
  [.environmental, .productSummary, .improperUse, .chemicalComponents, .safeUsage]

/-- Sample section bodies. -/
def sampleBody : Field → JSString
  | .productSummary => js "Bleach is a cleaner.\n\n"
  | .chemicalComponents => js "Water; sodium hypochlorite #1.\n"
  | .safeUsage => js "  Ventilate the room. "
  | .improperUse => js "\nIrritation.\n"
  | .environmental => js "Dilute before disposal.\n"

/-! ## `frontend/script.js` -/

/-- The state of the autocomplete widget: the module variables `selectedIndex` and
`filteredProducts`, the items rendered in `autocompleteList` and its `active` class.
`selectedIndex` is a JavaScript number; `none` stands for `NaN`. -/
structure Widget where
  selectedIndex : Option Int
  filteredProducts : List JSString
  items : List JSString
  active : Bool
deriving DecidableEq

/-- The function `hideAutocomplete`. -/
def hideAutocomplete (w : Widget) : Widget :=
  { w with active := false, items := [], selectedIndex := some (-1) }

/-- The function `displayAutocomplete`. -/
def displayAutocomplete (w : Widget) (products : List JSString) : Widget :=
  { w with items := products, active := true }

/-- The `input` listener of `searchInput`; `raw` is `e.target.value`. -/
def onInput (L : CaseMap) (PRODUCTS : List JSString) (w : Widget) (raw : JSString) : Widget :=
  let value := trim raw
  if value.length < 1 then hideAutocomplete w
  else
    let filteredProducts :=
      (PRODUCTS.filter (fun product =>
        includes (L.toLowerCase product) (L.toLowerCase value))).take 10
    let w := { w with filteredProducts := filteredProducts }
    if filteredProducts.length = 0 then hideAutocomplete w
    else { displayAutocomplete w filteredProducts with selectedIndex := some (-1) }

/-- The `ArrowDown` branch of the `keydown` listener on `selectedIndex`, for a list of `n`
items: `(selectedIndex + 1) % items.length`.  The remainder by zero is `NaN`. -/
def arrowDown (n : Nat) : Option Int → Option Int
  | none => none
  | some i => if n = 0 then none else some (Int.tmod (i + 1) n)

/-- The `ArrowUp` branch of the `keydown` listener on `selectedIndex`:
`selectedIndex <= 0 ? items.length - 1 : selectedIndex - 1`. -/
def arrowUp (n : Nat) : Option Int → Option Int
  | none => none
  | some i => if i ≤ 0 then some ((n : Int) - 1) else some (i - 1)

/-- The two arrow keys. -/
inductive Arrow where
  | down
  | up
deriving DecidableEq

/-- One arrow key press. -/
def press (n : Nat) (i : Option Int) : Arrow → Option Int
  | .down => arrowDown n i
  | .up => arrowUp n i

/-- A sequence of arrow key presses, first key first. -/
def pressAll (n : Nat) (i : Option Int) (keys : List Arrow) : Option Int :=
  keys.foldl (press n) i

/-! ## Strings: basic facts -/

theorem includes_iff (s sub : JSString) : includes s sub = true ↔ sub <:+: s := by
  unfold includes
  rw [List.any_eq_true]
  constructor
  · rintro ⟨t, ht, hp⟩
    rw [List.mem_tails] at ht
    exact (List.isPrefixOf_iff_prefix.mp hp).isInfix.trans ht.isInfix
  · intro h
    obtain ⟨t, hp, hs⟩ := List.infix_iff_prefix_suffix.mp h
    exact ⟨t, (List.mem_tails _ _).mpr hs, List.isPrefixOf_iff_prefix.mpr hp⟩

theorem trimStart_length_le (s : JSString) : (trimStart s).length ≤ s.length :=
  (List.dropWhile_suffix _).length_le

theorem trimEnd_length_le (s : JSString) : (trimEnd s).length ≤ s.length := by
  unfold trimEnd
  rw [List.length_reverse]
  exact ((List.dropWhile_suffix _).length_le).trans (by simp)

theorem trim_length_le (s : JSString) : (trim s).length ≤ s.length :=
  (trimStart_length_le _).trans (trimEnd_length_le s)

theorem dropWhile_append_cons_of_neg (P : Nat → Bool) (a b : List Nat) (x : Nat)
    (hx : P x = false) : ∃ a1, List.dropWhile P (a ++ x :: b) = a1 ++ x :: b := by
  induction a with
  | nil => exact ⟨[], by simp [List.dropWhile_cons, hx]⟩
  | cons c a ih =>
    by_cases hc : P c = true
    · obtain ⟨a1, h1⟩ := ih
      exact ⟨a1, by simp [List.dropWhile_cons, hc, h1]⟩
    · exact ⟨c :: a, by simp [List.dropWhile_cons, hc]⟩

theorem trimStart_append_cons (a b : JSString) (x : Nat) (hx : isWhiteSpace x = false) :
    ∃ a1, trimStart (a ++ x :: b) = a1 ++ x :: b :=
  dropWhile_append_cons_of_neg isWhiteSpace a b x hx

theorem trimEnd_append_cons (a b : JSString) (x : Nat) (hx : isWhiteSpace x = false) :
    ∃ b1, trimEnd (a ++ x :: b) = a ++ x :: b1 := by
  obtain ⟨r, hr⟩ := dropWhile_append_cons_of_neg isWhiteSpace b.reverse a.reverse x hx
  refine ⟨r.reverse, ?_⟩
  unfold trimEnd
  have : (a ++ x :: b).reverse = b.reverse ++ x :: a.reverse := by simp
  rw [this, hr]
  simp

/-- Trimming keeps everything between two non-blank code units. -/
theorem trim_keeps_between (p m q : JSString) (x y : Nat)
    (hx : isWhiteSpace x = false) (hy : isWhiteSpace y = false) :
    ∃ p1 q1, trim (p ++ x :: (m ++ y :: q)) = p1 ++ x :: (m ++ y :: q1) := by
  obtain ⟨q1, h2⟩ := trimEnd_append_cons (p ++ x :: m) q y hy
  obtain ⟨p1, h1⟩ := trimStart_append_cons p (m ++ y :: q1) x hx
  refine ⟨p1, q1, ?_⟩
  unfold trim
  have : p ++ x :: (m ++ y :: q) = (p ++ x :: m) ++ y :: q := by simp
  rw [this, h2]
  have : (p ++ x :: m) ++ y :: q1 = p ++ x :: (m ++ y :: q1) := by simp
  rw [this, h1]

theorem asciiLower_eq_b (c : Nat) (h : asciiLower c = 98) : c = 66 ∨ c = 98 := by
  unfold asciiLower at h
  split at h <;> omega

theorem asciiLower_lt (c : Nat) (h : asciiLower c < 128) : c < 128 := by
  unfold asciiLower at h
  split at h <;> omega

/-- A string holding a case variant of `bomb` keeps at least four code units when trimmed,
and its lowercase form contains `bomb`. -/
theorem bomb_variant (L : CaseMap) (p w q : JSString) (hw : w.map asciiLower = js "bomb") :
    4 ≤ (trim (p ++ w ++ q)).length ∧ js "bomb" <:+: L.toLowerCase (p ++ w ++ q) := by
  have hjs : js "bomb" = [98, 111, 109, 98] := by decide
  rw [hjs] at hw
  constructor
  · rcases w with _ | ⟨c1, _ | ⟨c2, _ | ⟨c3, _ | ⟨c4, _ | ⟨c5, w⟩⟩⟩⟩⟩ <;>
      simp only [List.map_cons, List.map_nil, List.cons.injEq, and_true, reduceCtorEq,
        and_false, false_and] at hw
    obtain ⟨h1, _, _, h4⟩ := hw
    have w1 : isWhiteSpace c1 = false := by
      rcases asciiLower_eq_b c1 h1 with h | h <;> subst h <;> decide
    have w4 : isWhiteSpace c4 = false := by
      rcases asciiLower_eq_b c4 h4 with h | h <;> subst h <;> decide
    obtain ⟨p1, q1, ht⟩ := trim_keeps_between p [c2, c3] q c1 c4 w1 w4
    have : p ++ [c1, c2, c3, c4] ++ q = p ++ c1 :: ([c2, c3] ++ c4 :: q) := by simp
    rw [this, ht]
    simp
    omega
  · have hascii : ∀ c ∈ w, c < 128 := by
      intro c hc
      have : asciiLower c ∈ w.map asciiLower := List.mem_map_of_mem _ hc
      rw [hw] at this
      apply asciiLower_lt
      simp at this
      omega
    have := L.toLowerCase_infix p w q hascii
    rw [hw] at this
    rw [hjs]
    exact this

/-! ## Splitting and joining -/

theorem splitGo_ne_nil (sep : JSString) (s : JSString) (k : Nat) : splitGo sep s k ≠ [] := by
  induction s generalizing k with
  | nil => simp [splitGo]
  | cons c cs ih =>
    cases k with
    | succ k => simpa [splitGo] using ih k
    | zero =>
      unfold splitGo
      split
      · simp
      · split <;> simp

theorem splitGo_skip (sep x r : JSString) : splitGo sep (x ++ r) x.length = splitGo sep r 0 := by
  induction x with
  | nil => rfl
  | cons c x ih => simpa [splitGo] using ih

theorem splitGo_cons_zero (sep cs : JSString) (c : Nat) :
    splitGo sep (c :: cs) 0 =
      if sep.isPrefixOf (c :: cs) then [] :: splitGo sep cs (sep.length - 1)
      else
        match splitGo sep cs 0 with
        | [] => [[c]]
        | h :: t => (c :: h) :: t := by
  rw [splitGo]

theorem splitGo_cons_match (sep cs : JSString) (c : Nat) (h : sep <+: c :: cs) :
    splitGo sep (c :: cs) 0 = [] :: splitGo sep cs (sep.length - 1) := by
  rw [splitGo_cons_zero, if_pos (List.isPrefixOf_iff_prefix.mpr h)]

theorem splitGo_cons_no_match (sep cs : JSString) (c : Nat)
    (h : ¬ sep <+: c :: cs) :
    splitGo sep (c :: cs) 0 =
      (c :: (splitGo sep cs 0).headD []) :: (splitGo sep cs 0).tail := by
  have hp : ¬ sep.isPrefixOf (c :: cs) = true := by
    rw [List.isPrefixOf_iff_prefix]
    exact h
  rw [splitGo_cons_zero, if_neg hp]
  rcases hs : splitGo sep cs 0 with _ | ⟨hd, tl⟩
  · exact absurd hs (splitGo_ne_nil _ _ _)
  · rfl

theorem splitGo_sep_append (sep r : JSString) (hsep : sep ≠ []) :
    splitGo sep (sep ++ r) 0 = [] :: splitGo sep r 0 := by
  cases sep with
  | nil => exact absurd rfl hsep
  | cons c cs =>
    have h := splitGo_skip (c :: cs) cs r
    rw [List.cons_append, splitGo_cons_match _ _ _ ⟨r, rfl⟩]
    simp only [List.length_cons, Nat.add_sub_cancel]
    rw [h]

/-- A stretch in which no separator match begins is glued to the first piece of the rest. -/
theorem splitGo_append_of_no_match (sep a r : JSString)
    (h : ∀ u t : JSString, a = u ++ t → t ≠ [] → ¬ sep <+: t ++ r) :
    splitGo sep (a ++ r) 0 =
      (a ++ (splitGo sep r 0).headD []) :: (splitGo sep r 0).tail := by
  induction a with
  | nil =>
    rcases hs : splitGo sep r 0 with _ | ⟨hd, tl⟩
    · exact absurd hs (splitGo_ne_nil _ _ _)
    · simp [hs]
  | cons c a ih =>
    have h1 : ¬ sep <+: c :: (a ++ r) := h [] (c :: a) rfl (by simp)
    have h2 : ∀ u t : JSString, a = u ++ t → t ≠ [] → ¬ sep <+: t ++ r := by
      intro u t hut ht
      exact h (c :: u) t (by simp [hut]) ht
    rw [List.cons_append, splitGo_cons_no_match sep (a ++ r) c h1, ih h2]
    simp

theorem split_of_no_match (sep a : JSString)
    (h : ∀ u t : JSString, a = u ++ t → t ≠ [] → ¬ sep <+: t) : split a sep = [a] := by
  have := splitGo_append_of_no_match sep a [] (by simpa using h)
  simpa [split, splitGo] using this

theorem split_append_sep (sep a r : JSString) (hsep : sep ≠ [])
    (h : ∀ u t : JSString, a = u ++ t → t ≠ [] → ¬ sep <+: t ++ (sep ++ r)) :
    split (a ++ (sep ++ r)) sep = a :: split r sep := by
  unfold split
  rw [splitGo_append_of_no_match sep a (sep ++ r) h, splitGo_sep_append sep r hsep]
  simp

theorem join_cons_cons (c : Nat) (hd : JSString) (tl : List JSString) (sep : JSString) :
    join ((c :: hd) :: tl) sep = c :: join (hd :: tl) sep := by
  cases tl <;> simp [join]

theorem join_nil_cons (l : List JSString) (sep : JSString) (hl : l ≠ []) :
    join ([] :: l) sep = sep ++ join l sep := by
  cases l with
  | nil => exact absurd rfl hl
  | cons b rest => simp [join]

/-- Joining the pieces of a split with the separator gives the string back. -/
theorem join_splitGo (sep : JSString) (hsep : sep ≠ []) (s : JSString) (k : Nat) :
    join (splitGo sep s k) sep = s.drop k := by
  induction s generalizing k with
  | nil => simp [splitGo, join]
  | cons c cs ih =>
    cases k with
    | succ k => simpa [splitGo] using ih k
    | zero =>
      by_cases hp : sep <+: c :: cs
      · have hp1 : sep.isPrefixOf (c :: cs) = true := List.isPrefixOf_iff_prefix.mpr hp
        obtain ⟨rest, hrest⟩ := hp
        cases sep with
        | nil => exact absurd rfl hsep
        | cons d ds =>
          simp only [List.cons_append, List.cons.injEq] at hrest
          obtain ⟨rfl, rfl⟩ := hrest
          rw [splitGo_cons_match _ _ _ ⟨rest, rfl⟩,
            join_nil_cons _ _ (splitGo_ne_nil _ _ _), ih]
          simp
      · rw [splitGo_cons_no_match sep cs c hp]
        have := ih 0
        rcases hs : splitGo sep cs 0 with _ | ⟨hd, tl⟩
        · exact absurd hs (splitGo_ne_nil _ _ _)
        · rw [hs] at this
          simp only [List.headD_cons, List.tail_cons, join_cons_cons, this, List.drop_zero]

theorem join_split (sep : JSString) (hsep : sep ≠ []) (s : JSString) :
    join (split s sep) sep = s := by
  simpa [split] using join_splitGo sep hsep s 0

/-- What `lines.slice(1).join(sep)` keeps is a suffix of the string that was split. -/
theorem join_drop_one_final (sep : JSString) (hsep : sep ≠ []) (s : JSString) :
    join ((split s sep).drop 1) sep <:+ s := by
  have h := join_split sep hsep s
  rcases hs : split s sep with _ | ⟨hd, _ | ⟨b, rest⟩⟩
  · simp [join]
  · simp [join]
  · rw [hs] at h
    simp only [join] at h
    simp only [List.drop_one, List.tail_cons]
    exact ⟨hd ++ sep, by rw [← h]⟩

/-- Every piece of a split is a contiguous part of the string, the first one a prefix. -/
theorem splitGo_within (sep : JSString) (s : JSString) (k : Nat) :
    (∀ x ∈ splitGo sep s k, x <:+: s) ∧ (k = 0 → (splitGo sep s 0).headD [] <+: s) := by
  induction s generalizing k with
  | nil => simp [splitGo]
  | cons c cs ih =>
    cases k with
    | succ k =>
      refine ⟨?_, by simp⟩
      intro x hx
      simp only [splitGo] at hx
      exact ((ih k).1 x hx).trans (List.suffix_cons c cs).isInfix
    | zero =>
      by_cases hp : sep <+: c :: cs
      · rw [splitGo_cons_match sep cs c hp]
        simp only [List.mem_cons, List.headD_cons]
        refine ⟨?_, fun _ => List.nil_prefix⟩
        rintro x (rfl | hx)
        · exact List.nil_infix
        · exact ((ih _).1 x hx).trans (List.suffix_cons c cs).isInfix
      · rw [splitGo_cons_no_match sep cs c hp]
        have hhd : c :: (splitGo sep cs 0).headD [] <+: c :: cs := by
          obtain ⟨t, ht⟩ := (ih 0).2 rfl
          exact ⟨t, by rw [List.cons_append, ht]⟩
        refine ⟨?_, fun _ => hhd⟩
        intro x hx
        simp only [List.mem_cons] at hx
        rcases hx with rfl | hx
        · exact hhd.isInfix
        · exact ((ih 0).1 x (List.mem_of_mem_tail hx)).trans (List.suffix_cons c cs).isInfix

theorem split_within (sep s x : JSString) (hx : x ∈ split s sep) : x <:+: s :=
  (splitGo_within sep s 0).1 x hx

/-! ## The section parser -/

theorem trimStart_final (s : JSString) : trimStart s <:+ s := List.dropWhile_suffix _

theorem trimEnd_initial (s : JSString) : trimEnd s <+: s := by
  unfold trimEnd
  have h := (List.dropWhile_suffix isWhiteSpace (l := s.reverse))
  have := List.reverse_prefix.mpr h
  simpa using this

theorem trim_within (s : JSString) : trim s <:+: s :=
  (trimStart_final _).isInfix.trans (trimEnd_initial s).isInfix

theorem js_newline_ne_nil : js "\n" ≠ [] := by decide

theorem split_head (s sep : JSString) :
    (split s sep).head? = some ((split s sep).headD []) := by
  rcases hs : split s sep with _ | ⟨hd, tl⟩
  · exact absurd hs (splitGo_ne_nil _ _ _)
  · rfl

theorem contentOf_within (part : JSString) : contentOf part <:+: part :=
  (trim_within _).trans
    ((join_drop_one_final _ js_newline_ne_nil _).isInfix.trans (trim_within part))

theorem get_set (r : AnalysisResult) (f g : Field) (v : JSString) :
    (r.set f v).get g = if f = g then v else r.get g := by
  cases f <;> cases g <;> simp [AnalysisResult.set, AnalysisResult.get]

/-- The `forEach` callback never throws: it is `applyPart`. -/
theorem parsePart_eq (L : CaseMap) (sections : AnalysisResult) (part : JSString) :
    parsePart L sections part = .ok (applyPart L sections part) := by
  unfold parsePart applyPart headerOf contentOf
  simp only [split_head]
  generalize L.toLowerCase ((split (trim part) (js "\n")).headD []) = header
  generalize trim (join ((split (trim part) (js "\n")).drop 1) (js "\n")) = content
  simp only [selectField, Field.all, Field.matchesHeader, Field.keywords, List.any_cons,
    List.any_nil, Bool.or_false, List.find?_cons, List.find?_nil]
  by_cases h1 : includes header (js "product summary") = true
  · simp [h1, AnalysisResult.set]
  by_cases h2 : includes header (js "chemical component") = true
  · simp [h1, h2, AnalysisResult.set]
  by_cases h3 : (includes header (js "safe usage") || includes header (js "usage guideline")) = true
  · simp only [h1, h2, h3, if_true, if_false, Bool.false_eq_true]
    simp [AnalysisResult.set]
  by_cases h4 : (includes header (js "improper use") || includes header (js "effects")) = true
  · simp only [h1, h2, h3, h4, if_true, if_false, Bool.false_eq_true]
    simp [AnalysisResult.set]
  by_cases h5 : includes header (js "environmental") = true
  · simp only [h1, h2, h3, h4, h5, if_true, if_false, Bool.false_eq_true]
    simp [AnalysisResult.set]
  · simp only [h1, h2, h3, h4, h5, if_false, Bool.false_eq_true]

theorem foldlM_parsePart (L : CaseMap) (parts : List JSString) (sections : AnalysisResult) :
    parts.foldlM (parsePart L) sections = .ok (parts.foldl (applyPart L) sections) := by
  induction parts generalizing sections with
  | nil => rfl
  | cons part parts ih =>
    rw [List.foldlM_cons, parsePart_eq, List.foldl_cons]
    exact ih _

/-- The function `parseResponse` never throws: it folds `applyPart` over the fragments. -/
theorem parseResponse_eq (L : CaseMap) (text : JSString) :
    parseResponse L text = .ok ((responseParts text).foldl (applyPart L) emptySections) :=
  foldlM_parsePart L _ _

theorem applyPart_get (L : CaseMap) (sections : AnalysisResult) (part : JSString) (f : Field) :
    (applyPart L sections part).get f =
      if selectField (headerOf L part) = some f then contentOf part else sections.get f := by
  unfold applyPart
  rcases hsel : selectField (headerOf L part) with _ | g
  · simp
  · simp only [get_set, Option.some.injEq]

/-- After the fold a field holds the content of the last fragment selecting it, and its
initial value when no fragment selects it. -/
theorem foldl_applyPart_get (L : CaseMap) (parts : List JSString) (sections : AnalysisResult)
    (f : Field) :
    (parts.foldl (applyPart L) sections).get f =
      match lastSelecting L parts f with
      | some part => contentOf part
      | none => sections.get f := by
  induction parts generalizing sections with
  | nil => rfl
  | cons part parts ih =>
    rw [List.foldl_cons, ih]
    unfold lastSelecting
    rw [List.reverse_cons, List.find?_append]
    rcases List.find? (fun part => decide (selectField (headerOf L part) = some f))
      parts.reverse with _ | found
    · by_cases hsel : selectField (headerOf L part) = some f
      · simp [applyPart_get, hsel, List.find?_cons]
      · simp [applyPart_get, hsel, List.find?_cons]
    · simp

/-! ## Well-formed responses -/

theorem trimEnd_append (a x : JSString) :
    trimEnd (a ++ x) = if trimEnd x = [] then trimEnd a else a ++ trimEnd x := by
  unfold trimEnd
  rw [List.reverse_append, List.dropWhile_append]
  by_cases h : List.dropWhile isWhiteSpace x.reverse = []
  · simp [h]
  · have h1 : (List.dropWhile isWhiteSpace x.reverse).isEmpty = false := by
      cases hd : List.dropWhile isWhiteSpace x.reverse with
      | nil => exact absurd hd h
      | cons _ _ => rfl
    simp [h, h1]

theorem trimStart_append (a x : JSString) :
    trimStart (a ++ x) = if trimStart a = [] then trimStart x else trimStart a ++ x := by
  unfold trimStart
  rw [List.dropWhile_append]
  by_cases h : List.dropWhile isWhiteSpace a = []
  · simp [h]
  · have h1 : (List.dropWhile isWhiteSpace a).isEmpty = false := by
      cases hd : List.dropWhile isWhiteSpace a with
      | nil => exact absurd hd h
      | cons _ _ => rfl
    simp [h, h1]

theorem trimEnd_idem (s : JSString) : trimEnd (trimEnd s) = trimEnd s := by
  unfold trimEnd
  rw [List.reverse_reverse, List.dropWhile_idempotent]

theorem trim_trimEnd (s : JSString) : trim (trimEnd s) = trim s := by
  unfold trim
  rw [trimEnd_idem]

theorem trim_ne_nil (s : JSString) (h : ∃ c ∈ s, isWhiteSpace c = false) : trim s ≠ [] := by
  obtain ⟨c, hc, hw⟩ := h
  obtain ⟨a, b, rfl⟩ := List.append_of_mem hc
  obtain ⟨b1, h1⟩ := trimEnd_append_cons a b c hw
  obtain ⟨a1, h2⟩ := trimStart_append_cons a b1 c hw
  unfold trim
  rw [h1, h2]
  simp

/-- The facts about the five canonical titles that the parser relies on. -/
theorem title_facts (f : Field) :
    trimEnd (js " " ++ f.title) = js " " ++ f.title ∧
    trimStart (js " " ++ f.title) = f.title ∧
    f.title ≠ [] ∧
    (∀ c ∈ f.title, c < 128) ∧
    10 ∉ f.title ∧
    35 ∉ js " " ++ f.title ++ js "\n" ∧
    selectField (f.title.map asciiLower) = some f := by
  cases f <;> decide

theorem trim_fragment (body : Field → JSString) (f : Field) :
    trim (fragment body f) = f.title ++ trimEnd (js "\n" ++ body f) := by
  obtain ⟨h1, h2, h3, _⟩ := title_facts f
  have hfrag : fragment body f = (js " " ++ f.title) ++ (js "\n" ++ body f) := by
    simp [fragment]
  unfold trim
  rw [hfrag, trimEnd_append]
  have hne : trimStart (js " " ++ f.title) ≠ [] := by rw [h2]; exact h3
  split
  · next he => rw [h1, he, List.append_nil, h2]
  · rw [trimStart_append, if_neg hne, h2]

theorem trimEnd_newline_append (b : JSString) :
    trimEnd (js "\n" ++ b) = if trimEnd b = [] then [] else js "\n" ++ trimEnd b := by
  rw [trimEnd_append]
  have : trimEnd (js "\n") = [] := by decide
  rw [this]

theorem no_newline_start (title : JSString) (h : 10 ∉ title) (r : JSString) :
    ∀ u t : JSString, title = u ++ t → t ≠ [] → ¬ js "\n" <+: t ++ r := by
  intro u t hut ht hp
  cases t with
  | nil => exact ht rfl
  | cons x t =>
    have hjs : js "\n" = [10] := by decide
    rw [hjs] at hp
    obtain ⟨q, hq⟩ := hp
    simp only [List.cons_append, List.nil_append, List.cons.injEq] at hq
    apply h
    rw [hut, ← hq.1]
    simp

/-- The first line and the content of the fragment of a canonical section. -/
theorem fragment_lines (body : Field → JSString) (f : Field) :
    (split (trim (fragment body f)) (js "\n")).headD [] = f.title ∧
    contentOf (fragment body f) = trim (body f) := by
  obtain ⟨_, _, _, _, h10, _⟩ := title_facts f
  unfold contentOf
  rw [trim_fragment, trimEnd_newline_append]
  by_cases he : trimEnd (body f) = []
  · rw [if_pos he, List.append_nil]
    have hs : split f.title (js "\n") = [f.title] :=
      split_of_no_match _ _ (by simpa using no_newline_start f.title h10 [])
    rw [hs]
    refine ⟨rfl, ?_⟩
    have : trim (body f) = [] := by
      unfold trim
      rw [he]
      rfl
    rw [this]
    rfl
  · rw [if_neg he, split_append_sep _ _ _ js_newline_ne_nil (no_newline_start f.title h10 _)]
    refine ⟨rfl, ?_⟩
    simp only [List.drop_one, List.tail_cons]
    rw [join_split _ js_newline_ne_nil, trim_trimEnd]

theorem applyPart_fragment (L : CaseMap) (sections : AnalysisResult)
    (body : Field → JSString) (f : Field) :
    applyPart L sections (fragment body f) = sections.set f (trim (body f)) := by
  obtain ⟨_, _, _, hascii, _, _, hsel⟩ := title_facts f
  obtain ⟨hhead, hcontent⟩ := fragment_lines body f
  unfold applyPart headerOf
  rw [hhead, L.toLowerCase_ascii _ hascii, hsel, hcontent]

theorem foldl_fragments_get (L : CaseMap) (body : Field → JSString) (order : List Field)
    (sections : AnalysisResult) (g : Field) :
    ((order.map (fragment body)).foldl (applyPart L) sections).get g =
      if g ∈ order then trim (body g) else sections.get g := by
  induction order generalizing sections with
  | nil => simp
  | cons f rest ih =>
    rw [List.map_cons, List.foldl_cons, ih, applyPart_fragment, get_set]
    by_cases h1 : g ∈ rest
    · simp [h1]
    · by_cases h2 : f = g
      · subst h2
        simp
      · have h3 : ¬ g = f := fun h => h2 h.symm
        simp [h1, h2, h3]

theorem js_hh : js "##" = [35, 35] := by decide

/-- No `##` match begins inside a stretch `a ++ b` when `a` has no `#`, `b` has no `##` and
either nothing follows or `b` does not end in `#`. -/
theorem hh_no_match (a b r : JSString) (ha : 35 ∉ a) (hb : ¬ js "##" <:+: b)
    (hr : r = [] ∨ b.getLast? ≠ some 35) :
    ∀ u t : JSString, a ++ b = u ++ t → t ≠ [] → ¬ js "##" <+: t ++ r := by
  intro u t h ht hp
  rw [js_hh] at hp hb
  obtain ⟨q, hq⟩ := hp
  have key : ∀ a1 : JSString, b = a1 ++ t → False := by
    intro a1 hbt
    rcases t with _ | ⟨x, _ | ⟨y, t2⟩⟩
    · exact ht rfl
    · simp only [List.cons_append, List.nil_append, List.cons.injEq] at hq
      rcases hr with hr | hr
      · rw [hr] at hq
        exact absurd hq.2 (by simp)
      · apply hr
        rw [hbt, ← hq.1]
        simp
    · simp only [List.cons_append, List.cons.injEq] at hq
      apply hb
      rw [hbt, ← hq.1, ← hq.2.1]
      exact ⟨a1, t2, by simp⟩
  rcases List.append_eq_append_iff.mp h with ⟨a1, _, hbt⟩ | ⟨c1, hau, htc⟩
  · exact key a1 hbt
  · cases c1 with
    | nil => exact key [] (by simpa using htc.symm)
    | cons x c2 =>
      rw [htc] at hq
      simp only [List.cons_append, List.cons.injEq] at hq
      apply ha
      rw [hau, ← hq.1]
      simp

theorem responseText_cons (body : Field → JSString) (f : Field) (rest : List Field) :
    responseText (f :: rest) body =
      js "##" ++ (fragment body f ++ responseText rest body) := by
  have h3 : js "## " = js "##" ++ js " " := by decide
  simp [responseText, sectionText, fragment, h3]

theorem getLast?_endsLine (b : JSString) (h : EndsLine b) : b.getLast? ≠ some 35 := by
  rcases h with h | h <;> simp [h]

/-- Splitting a well-formed response at `##` gives the empty piece before the first
header and then one fragment per section. -/
theorem split_responseText (body : Field → JSString) (order : List Field)
    (hbody : ∀ f ∈ order, ¬ js "##" <:+: body f)
    (hline : ∀ f ∈ order.dropLast, EndsLine (body f)) :
    split (responseText order body) (js "##") = [] :: order.map (fragment body) := by
  induction order with
  | nil => rfl
  | cons f rest ih =>
    have ih1 := ih (fun g hg => hbody g (List.mem_cons_of_mem _ hg)) (by
      intro g hg
      apply hline g
      cases rest with
      | nil => simp at hg
      | cons g1 rest1 => exact List.mem_cons_of_mem _ hg)
    have hfrag : fragment body f = (js " " ++ f.title ++ js "\n") ++ body f := by
      simp [fragment]
    have hr : responseText rest body = [] ∨ (body f).getLast? ≠ some 35 := by
      cases rest with
      | nil => exact Or.inl rfl
      | cons g rest1 =>
        exact Or.inr (getLast?_endsLine _ (hline f (by simp [List.dropLast])))
    have hno := hh_no_match (js " " ++ f.title ++ js "\n") (body f) (responseText rest body)
      (title_facts f).2.2.2.2.2.1 (hbody f (List.mem_cons_self _ _)) hr
    rw [← hfrag] at hno
    unfold split at ih1 ⊢
    rw [responseText_cons, splitGo_sep_append _ _ (by decide),
      splitGo_append_of_no_match _ _ _ hno, ih1]
    simp

theorem trim_fragment_ne_nil (body : Field → JSString) (f : Field) :
    trim (fragment body f) ≠ [] := by
  rw [trim_fragment]
  have := (title_facts f).2.2.1
  simp [this]

theorem responseParts_responseText (body : Field → JSString) (order : List Field)
    (hbody : ∀ f ∈ order, ¬ js "##" <:+: body f)
    (hline : ∀ f ∈ order.dropLast, EndsLine (body f)) :
    responseParts (responseText order body) = order.map (fragment body) := by
  unfold responseParts
  rw [split_responseText body order hbody hline, List.filter_cons]
  have h0 : (!(trim ([] : JSString)).isEmpty) = false := by decide
  rw [h0]
  simp only [Bool.false_eq_true, if_false]
  rw [List.filter_eq_self]
  intro p hp
  obtain ⟨f, _, rfl⟩ := List.mem_map.mp hp
  have := trim_fragment_ne_nil body f
  cases h : trim (fragment body f) with
  | nil => exact absurd h this
  | cons _ _ => rfl

/-- Parsing a well-formed response: every listed field gets its trimmed body, every other
field stays empty. -/
theorem parseResponse_responseText (L : CaseMap) (body : Field → JSString)
    (order : List Field) (hbody : ∀ f ∈ order, ¬ js "##" <:+: body f)
    (hline : ∀ f ∈ order.dropLast, EndsLine (body f)) :
    ∃ r, parseResponse L (responseText order body) = .ok r ∧
      ∀ g, r.get g = if g ∈ order then trim (body g) else [] := by
  refine ⟨_, parseResponse_eq L _, ?_⟩
  intro g
  rw [responseParts_responseText body order hbody hline, foldl_fragments_get]
  have : emptySections.get g = [] := by cases g <;> rfl
  rw [this]

theorem result_ext (r1 r2 : AnalysisResult) (h : ∀ f, r1.get f = r2.get f) : r1 = r2 := by
  have h1 := h .productSummary
  have h2 := h .chemicalComponents
  have h3 := h .safeUsage
  have h4 := h .improperUse
  have h5 := h .environmental
  cases r1
  cases r2
  simp only [AnalysisResult.get] at h1 h2 h3 h4 h5
  simp [h1, h2, h3, h4, h5]

theorem emptySections_get (f : Field) : emptySections.get f = [] := by
  cases f <;> rfl

theorem lastSelecting_some (L : CaseMap) (parts : List JSString) (f : Field)
    (part : JSString) (h : lastSelecting L parts f = some part) :
    part ∈ parts ∧ selectField (headerOf L part) = some f := by
  unfold lastSelecting at h
  refine ⟨List.mem_reverse.mp (List.mem_of_find?_eq_some h), ?_⟩
  have := List.find?_some h
  simpa using this

theorem responseParts_within (text part : JSString) (h : part ∈ responseParts text) :
    part <:+: text :=
  split_within _ _ _ (List.mem_filter.mp h).1

/-- C2: a text made of the five canonical headers in any order, each on its own line and
followed by a body without `##`, is parsed into the five trimmed bodies, each in its own
field; the result does not depend on the order of the sections, and no field is empty when
no body is blank. -/
theorem parseResponse_canonical (L : CaseMap) (body : Field → JSString) (order : List Field)
    (hperm : order.Perm Field.all) (hbody : ∀ f, ¬ js "##" <:+: body f)
    (hline : ∀ f ∈ order.dropLast, EndsLine (body f)) :
    parseResponse L (responseText order body) =
      .ok ⟨trim (body .productSummary), trim (body .chemicalComponents),
        trim (body .safeUsage), trim (body .improperUse), trim (body .environmental)⟩ ∧
    (∀ order2 : List Field, order2.Perm Field.all →
      (∀ f ∈ order2.dropLast, EndsLine (body f)) →
      parseResponse L (responseText order2 body) = parseResponse L (responseText order body)) ∧
    ((∀ f, ∃ c ∈ body f, isWhiteSpace c = false) →
      ∃ r, parseResponse L (responseText order body) = .ok r ∧ ∀ f, r.get f ≠ []) := by
  have main : ∀ o : List Field, o.Perm Field.all → (∀ f ∈ o.dropLast, EndsLine (body f)) →
      parseResponse L (responseText o body) =
        .ok ⟨trim (body .productSummary), trim (body .chemicalComponents),
          trim (body .safeUsage), trim (body .improperUse), trim (body .environmental)⟩ := by
    intro o ho hl
    obtain ⟨r, hr, hget⟩ := parseResponse_responseText L body o (fun f _ => hbody f) hl
    rw [hr]
    congr 1
    apply result_ext
    intro f
    have hmem : f ∈ o := ho.mem_iff.mpr (by cases f <;> decide)
    rw [hget f, if_pos hmem]
    cases f <;> rfl
  refine ⟨main order hperm hline, ?_, ?_⟩
  · intro order2 hperm2 hline2
    rw [main order hperm hline, main order2 hperm2 hline2]
  · intro hnb
    refine ⟨_, main order hperm hline, ?_⟩
    intro f
    have := trim_ne_nil (body f) (hnb f)
    cases f <;> exact this

theorem parseResponse_canonical_witness :
    parseResponse asciiCase (responseText sampleOrder sampleBody) =
      .ok ⟨js "Bleach is a cleaner.", js "Water; sodium hypochlorite #1.",
        js "Ventilate the room.", js "Irritation.", js "Dilute before disposal."⟩ :=
  (parseResponse_canonical asciiCase sampleBody sampleOrder (by decide)
    (fun f => by cases f <;> decide)
    (fun f hf => by
      have : f = .environmental ∨ f = .productSummary ∨ f = .improperUse ∨
          f = .chemicalComponents := by simpa [sampleOrder] using hf
      rcases this with h | h | h | h <;> subst h <;> exact Or.inr (by decide))).1.trans
    (congrArg Except.ok (by decide))

/-- C3: `parseResponse` returns on every text, the header line `lines[0]` of a fragment
always exists, a field none of whose keywords occurs in the first line of any fragment is
the empty string, a fragment whose header carries no keyword leaves the sections as they
are, and in a well-formed text with only some of the canonical headers the fields of the
absent headers are empty. -/
theorem parseResponse_total (L : CaseMap) (text : JSString) :
    (∀ part : JSString, ∃ line0, (split (trim part) (js "\n")).head? = some line0) ∧
    (∃ r, parseResponse L text = .ok r ∧
      ∀ f : Field, (∀ part ∈ responseParts text, f.matchesHeader (headerOf L part) = false) →
        r.get f = []) ∧
    (∀ (sections : AnalysisResult) (part : JSString),
      (∀ f : Field, f.matchesHeader (headerOf L part) = false) →
      parsePart L sections part = .ok sections) ∧
    (∀ (body : Field → JSString) (order : List Field),
      (∀ f ∈ order, ¬ js "##" <:+: body f) →
      (∀ f ∈ order.dropLast, EndsLine (body f)) →
      ∃ r, parseResponse L (responseText order body) = .ok r ∧
        ∀ f, f ∉ order → r.get f = []) := by
  refine ⟨fun part => ⟨_, split_head _ _⟩, ⟨_, parseResponse_eq L text, ?_⟩, ?_, ?_⟩
  · intro f hf
    rw [foldl_applyPart_get]
    rcases hlast : lastSelecting L (responseParts text) f with _ | part
    · exact emptySections_get f
    · obtain ⟨hmem, hsel⟩ := lastSelecting_some L _ f part hlast
      have h1 := List.find?_some hsel
      rw [hf part hmem] at h1
      exact absurd h1 (by simp)
  · intro sections part hnone
    rw [parsePart_eq]
    unfold applyPart
    have : selectField (headerOf L part) = none := by
      unfold selectField
      rw [List.find?_eq_none]
      intro f _
      simp [hnone f]
    rw [this]
  · intro body order hbody hline
    obtain ⟨r, hr, hget⟩ := parseResponse_responseText L body order hbody hline
    exact ⟨r, hr, fun f hf => by rw [hget f, if_neg hf]⟩

/-- C8: every field of the result of `parseResponse` is a contiguous substring of the
text (the empty string being one): no field holds code units that are not in the text. -/
theorem parseResponse_fields_within (L : CaseMap) (text : JSString) :
    ∃ r, parseResponse L text = .ok r ∧ ∀ f : Field, r.get f <:+: text := by
  refine ⟨_, parseResponse_eq L text, ?_⟩
  intro f
  rw [foldl_applyPart_get]
  rcases hlast : lastSelecting L (responseParts text) f with _ | part
  · rw [emptySections_get]
    exact List.nil_infix
  · obtain ⟨hmem, _⟩ := lastSelecting_some L _ f part hlast
    exact (contentOf_within part).trans (responseParts_within text part hmem)

/-- C9: last write wins.  Every field of the result is the trimmed content of the last
fragment, in text order, whose lowercased header selects the field under the priority
order of the keywords, and the empty string when no fragment selects it. -/
theorem parseResponse_last_write_wins (L : CaseMap) (text : JSString) :
    ∃ r, parseResponse L text = .ok r ∧
      ∀ f : Field, r.get f =
        match lastSelecting L (responseParts text) f with
        | some part => contentOf part
        | none => [] := by
  refine ⟨_, parseResponse_eq L text, ?_⟩
  intro f
  rw [foldl_applyPart_get, emptySections_get]

/-! ## The validation gate -/

theorem suspicious_iff (L : CaseMap) (s : JSString) :
    suspiciousTerms.any (fun term => includes (L.toLowerCase s) term) = true ↔
      ¬ ∀ t ∈ [js "bomb", js "explosive", js "weapon", js "poison", js "synthesis"],
        ¬ t <:+: L.toLowerCase s := by
  unfold suspiciousTerms
  rw [List.any_eq_true]
  simp only [includes_iff]
  push_neg
  rfl

/-- The handler on a string, as a chain of guards. -/
theorem postAnalyze_string (L : CaseMap)
    (analyzeProduct : JSString → Except Unit AnalysisResult) (s : JSString) :
    postAnalyze L analyzeProduct ⟨.string s⟩ =
      if s = [] then (⟨400, .error "Product name is required"⟩, [])
      else if (trim s).length < 2 then (⟨400, .error "Product name is too short"⟩, [])
      else if s.length > 100 then (⟨400, .error "Product name is too long"⟩, [])
      else if suspiciousTerms.any (fun term => includes (L.toLowerCase s) term) then
        (⟨400, .error "Unable to analyze this product"⟩, [])
      else match analyzeProduct s with
        | .ok result => (⟨200, .success result⟩, [s])
        | .error _ =>
          (⟨500, .error "Unable to analyze product at the moment. Please try again later."⟩, [s]) := by
  cases s with
  | nil => simp [postAnalyze, JSValue.truthy, JSValue.typeof]
  | cons c cs => simp [postAnalyze, JSValue.truthy, JSValue.typeof]

/-- The handler on anything but a string. -/
theorem postAnalyze_not_string (L : CaseMap)
    (analyzeProduct : JSString → Except Unit AnalysisResult) (v : JSValue)
    (hv : ∀ s, v ≠ .string s) :
    postAnalyze L analyzeProduct ⟨v⟩ = (⟨400, .error "Product name is required"⟩, []) := by
  cases v <;> first
    | exact absurd rfl (hv _)
    | simp [postAnalyze, JSValue.truthy, JSValue.typeof]

/-- Once `productName` is bound, the handler calls the generative client exactly when it
is a non-empty string of trimmed length at least 2 and raw length at most 100 whose
lowercase form contains no denylisted word; otherwise it answers 400 without calling it;
and every name passed to the client has between 2 and 100 code units after trimming. -/
theorem postAnalyze_invokes_iff (L : CaseMap)
    (analyzeProduct : JSString → Except Unit AnalysisResult) (body : RequestBody) :
    ((postAnalyze L analyzeProduct body).2 ≠ [] ↔ ValidName L body.productName) ∧
    (¬ ValidName L body.productName →
      (postAnalyze L analyzeProduct body).1.status = 400 ∧
      (postAnalyze L analyzeProduct body).2 = []) ∧
    (∀ name ∈ (postAnalyze L analyzeProduct body).2,
      body.productName = .string name ∧
      2 ≤ (trim name).length ∧ (trim name).length ≤ 100) := by
  obtain ⟨v⟩ := body
  by_cases hv : ∃ s, v = .string s
  · obtain ⟨s, rfl⟩ := hv
    have hval : ValidName L (.string s) ↔ s ≠ [] ∧ 2 ≤ (trim s).length ∧ s.length ≤ 100 ∧
        ∀ t ∈ [js "bomb", js "explosive", js "weapon", js "poison", js "synthesis"],
          ¬ t <:+: L.toLowerCase s := by
      constructor
      · rintro ⟨s1, h1, h2⟩
        cases h1
        exact h2
      · intro h
        exact ⟨s, rfl, h⟩
    have hle := trim_length_le s
    rw [postAnalyze_string, hval]
    dsimp only
    by_cases h0 : s = []
    · simp [h0]
    by_cases h1 : (trim s).length < 2
    · simp only [h0, h1, if_true, if_false]
      simp
      omega
    by_cases h2 : s.length > 100
    · simp only [h0, h1, h2, if_true, if_false]
      simp
      omega
    by_cases h3 : suspiciousTerms.any (fun term => includes (L.toLowerCase s) term) = true
    · simp only [h0, h1, h2, h3, if_true, if_false]
      have h3b := (suspicious_iff L s).mp h3
      exact ⟨⟨fun h => absurd rfl h, fun h => absurd h.2.2.2 h3b⟩, fun _ => by simp,
        fun name hn => by simp at hn⟩
    · simp only [h0, h1, h2, h3, if_false, Bool.false_eq_true]
      have h3b : ∀ t ∈ [js "bomb", js "explosive", js "weapon", js "poison", js "synthesis"],
          ¬ t <:+: L.toLowerCase s := by
        by_contra hc
        exact h3 ((suspicious_iff L s).mpr hc)
      have hvalid : s ≠ [] ∧ 2 ≤ (trim s).length ∧ s.length ≤ 100 ∧
          ∀ t ∈ [js "bomb", js "explosive", js "weapon", js "poison", js "synthesis"],
            ¬ t <:+: L.toLowerCase s := ⟨h0, by omega, by omega, h3b⟩
      cases analyzeProduct s <;>
        exact ⟨⟨fun _ => hvalid, fun _ => by simp⟩, fun hn => absurd hvalid hn,
          fun name hn => by
            simp only [List.mem_singleton] at hn
            subst hn
            exact ⟨rfl, by omega, by omega⟩⟩
  · have hv1 : ∀ s, v ≠ .string s := fun s hs => hv ⟨s, hs⟩
    rw [postAnalyze_not_string L analyzeProduct v hv1]
    have : ¬ ValidName L v := by
      rintro ⟨s, hs, _⟩
      exact hv1 s hs
    simp [this]

/-- C1 as stated fails when `req.body` is `undefined`: no valid name is present, yet the
answer is 500, not 400, because the destructuring throws inside the `try`. -/
theorem analyzeRoute_counterexample :
    ¬ ValidRequest asciiCase .undefined ∧
    (analyzeRoute asciiCase stubClient .undefined).1.status = 500 ∧
    (analyzeRoute asciiCase stubClient .undefined).1.status ≠ 400 ∧
    (analyzeRoute asciiCase stubClient .undefined).2 = [] := by
  refine ⟨?_, rfl, by decide, rfl⟩
  rintro ⟨body, hbody, _⟩
  simp [destructureBody] at hbody

/-- C1, amended: for every value of `req.body` the handler calls the generative client if
and only if `req.body` can be destructured and its `productName` is a non-empty string of
trimmed length at least 2 and raw length at most 100 whose lowercase form contains no
denylisted word; in every other case the client is not called, and the answer is 400
whenever `req.body` is neither `undefined` nor `null`; every name passed to the client has
between 2 and 100 code units after trimming. -/
theorem analyzeRoute_invokes_iff (L : CaseMap)
    (analyzeProduct : JSString → Except Unit AnalysisResult) (reqBody : JSValue) :
    ((analyzeRoute L analyzeProduct reqBody).2 ≠ [] ↔ ValidRequest L reqBody) ∧
    (¬ ValidRequest L reqBody → (analyzeRoute L analyzeProduct reqBody).2 = []) ∧
    (¬ ValidRequest L reqBody → reqBody ≠ .undefined → reqBody ≠ .null →
      (analyzeRoute L analyzeProduct reqBody).1.status = 400) ∧
    (∀ name ∈ (analyzeRoute L analyzeProduct reqBody).2,
      destructureBody reqBody = .ok ⟨.string name⟩ ∧
      2 ≤ (trim name).length ∧ (trim name).length ≤ 100) := by
  rcases hd : destructureBody reqBody with e | body
  · have hnv : ¬ ValidRequest L reqBody := by
      rintro ⟨b, hb, _⟩
      rw [hd] at hb
      cases hb
    have hroute : analyzeRoute L analyzeProduct reqBody =
        (⟨500, .error "Unable to analyze product at the moment. Please try again later."⟩,
          []) := by
      unfold analyzeRoute
      rw [hd]
    have hun : reqBody = .undefined ∨ reqBody = .null := by
      cases reqBody <;> simp [destructureBody] at hd <;> simp
    rw [hroute]
    refine ⟨⟨fun h => absurd rfl h, fun h => absurd h hnv⟩, fun _ => rfl, ?_, ?_⟩
    · intro _ h1 h2
      rcases hun with h | h
      · exact absurd h h1
      · exact absurd h h2
    · intro name hn
      simp at hn
  · have hroute : analyzeRoute L analyzeProduct reqBody = postAnalyze L analyzeProduct body := by
      unfold analyzeRoute
      rw [hd]
    have hv : ValidRequest L reqBody ↔ ValidName L body.productName := by
      constructor
      · rintro ⟨b, hb, h⟩
        rw [hd] at hb
        cases hb
        exact h
      · intro h
        exact ⟨body, hd, h⟩
    obtain ⟨h1, h2, h3⟩ := postAnalyze_invokes_iff L analyzeProduct body
    rw [hroute, hv]
    refine ⟨h1, fun h => (h2 h).2, fun h _ _ => (h2 h).1, ?_⟩
    intro name hn
    obtain ⟨hname, hlo, hhi⟩ := h3 name hn
    refine ⟨?_, hlo, hhi⟩
    rw [← hname]

theorem analyzeRoute_invokes_iff_witness :
    (analyzeRoute asciiCase stubClient (.object [])).1.status = 400 ∧
    (analyzeRoute asciiCase stubClient (.object [(js "productName", .string (js "x"))])).1
      = ⟨400, .error "Product name is too short"⟩ ∧
    (analyzeRoute asciiCase stubClient
      (.object [(js "productName", .string (js "Bleach"))])).2 = [js "Bleach"] := by
  refine ⟨?_, by decide, by decide⟩
  refine (analyzeRoute_invokes_iff asciiCase stubClient (.object [])).2.2.1 ?_
    (fun h => by cases h) (fun h => by cases h)
  rintro ⟨body, hbody, s, hs, _⟩
  simp only [destructureBody, List.reverse_nil, List.lookup_nil, Option.getD_none,
    Except.ok.injEq] at hbody
  rw [← hbody] at hs
  cases hs

/-- C5 as stated fails on the empty string: it is rejected by the first guard, as a
missing name, not as a name that is too short. -/
theorem tooShort_counterexample :
    (trim (js "")).length < 2 ∧
    (postAnalyze asciiCase stubClient ⟨.string (js "")⟩).1
      = ⟨400, .error "Product name is required"⟩ ∧
    (postAnalyze asciiCase stubClient ⟨.string (js "")⟩).1
      ≠ ⟨400, .error "Product name is too short"⟩ := by
  decide

/-- C5, amended: every non-empty string whose trimmed length is below 2 is answered with
400 and `Product name is too short`, and the generative client is not called. -/
theorem postAnalyze_tooShort (L : CaseMap)
    (analyzeProduct : JSString → Except Unit AnalysisResult) (s : JSString)
    (hne : s ≠ []) (hshort : (trim s).length < 2) :
    postAnalyze L analyzeProduct ⟨.string s⟩
      = (⟨400, .error "Product name is too short"⟩, []) := by
  rw [postAnalyze_string]
  simp [hne, hshort]

theorem postAnalyze_tooShort_witness :
    js " " ≠ [] ∧ (trim (js " ")).length < 2 ∧
    postAnalyze asciiCase stubClient ⟨.string (js " ")⟩
      = (⟨400, .error "Product name is too short"⟩, []) :=
  ⟨by decide, by decide,
    postAnalyze_tooShort asciiCase stubClient (js " ") (by decide) (by decide)⟩

/-- C6 as stated fails on 101 spaces: the raw length exceeds 100, but the trimmed length
is 0 and the length guard for short names comes first. -/
theorem tooLong_counterexample :
    (List.replicate 101 32).length > 100 ∧
    (postAnalyze asciiCase stubClient ⟨.string (List.replicate 101 32)⟩).1
      = ⟨400, .error "Product name is too short"⟩ ∧
    (postAnalyze asciiCase stubClient ⟨.string (List.replicate 101 32)⟩).1
      ≠ ⟨400, .error "Product name is too long"⟩ := by
  decide

/-- C6, amended: every string whose raw length exceeds 100 and whose trimmed length is at
least 2 is answered with 400 and `Product name is too long`, and the generative client is
not called. -/
theorem postAnalyze_tooLong (L : CaseMap)
    (analyzeProduct : JSString → Except Unit AnalysisResult) (s : JSString)
    (hlong : 100 < s.length) (htrim : 2 ≤ (trim s).length) :
    postAnalyze L analyzeProduct ⟨.string s⟩
      = (⟨400, .error "Product name is too long"⟩, []) := by
  rw [postAnalyze_string]
  have hne : s ≠ [] := by
    rintro rfl
    simp at hlong
  have h1 : ¬ (trim s).length < 2 := by omega
  simp [hne, h1, hlong]

theorem postAnalyze_tooLong_witness :
    100 < (List.replicate 101 97).length ∧ 2 ≤ (trim (List.replicate 101 97)).length ∧
    postAnalyze asciiCase stubClient ⟨.string (List.replicate 101 97)⟩
      = (⟨400, .error "Product name is too long"⟩, []) :=
  ⟨by decide, by decide,
    postAnalyze_tooLong asciiCase stubClient (List.replicate 101 97) (by decide) (by decide)⟩

/-- C7 as stated fails on `bomb` followed by 97 letters `a`: the string contains `bomb`
but has 101 code units, and the length guard comes before the denylist. -/
theorem disallowed_counterexample :
    js "bomb" <:+: js "bomb" ++ List.replicate 97 97 ∧
    (postAnalyze asciiCase stubClient ⟨.string (js "bomb" ++ List.replicate 97 97)⟩).1
      = ⟨400, .error "Product name is too long"⟩ ∧
    (postAnalyze asciiCase stubClient ⟨.string (js "bomb" ++ List.replicate 97 97)⟩).1
      ≠ ⟨400, .error "Unable to analyze this product"⟩ := by
  refine ⟨List.infix_append' [] _ _, ?_, ?_⟩ <;> decide

/-- C7, amended: every string of at most 100 code units that contains `bomb` in any
letter case is answered with 400 and `Unable to analyze this product`, and the generative
client is not called. -/
theorem postAnalyze_disallowed (L : CaseMap)
    (analyzeProduct : JSString → Except Unit AnalysisResult) (p w q : JSString)
    (hw : w.map asciiLower = js "bomb") (hlen : (p ++ w ++ q).length ≤ 100) :
    postAnalyze L analyzeProduct ⟨.string (p ++ w ++ q)⟩
      = (⟨400, .error "Unable to analyze this product"⟩, []) := by
  obtain ⟨h4, hin⟩ := bomb_variant L p w q hw
  rw [postAnalyze_string]
  have hne : p ++ w ++ q ≠ [] := by
    intro h
    rw [h] at h4
    simp [trim, trimStart, trimEnd] at h4
  have h1 : ¬ (trim (p ++ w ++ q)).length < 2 := by omega
  have h2 : ¬ (p ++ w ++ q).length > 100 := by omega
  have h3 : suspiciousTerms.any (fun term => includes (L.toLowerCase (p ++ w ++ q)) term)
      = true := by
    rw [suspicious_iff]
    intro h
    exact h (js "bomb") (by simp) hin
  simp only [hne, h1, h2, h3, if_true, if_false]

theorem postAnalyze_disallowed_witness :
    (js "BoMb").map asciiLower = js "bomb" ∧
    (js "my " ++ js "BoMb" ++ js " kit").length ≤ 100 ∧
    postAnalyze asciiCase stubClient ⟨.string (js "my " ++ js "BoMb" ++ js " kit")⟩
      = (⟨400, .error "Unable to analyze this product"⟩, []) :=
  ⟨by decide, by decide,
    postAnalyze_disallowed asciiCase stubClient (js "my ") (js "BoMb") (js " kit")
      (by decide) (by decide)⟩

/-! ## The autocomplete widget -/

/-- The first `n` matches of a list are all the matches of one of its prefixes. -/
theorem take_filter_eq_filter_take (P : JSString → Bool) (l : List JSString) (n : Nat) :
    ∃ k, (l.filter P).take n = (l.take k).filter P := by
  induction l generalizing n with
  | nil => exact ⟨0, by simp⟩
  | cons a l ih =>
    cases n with
    | zero => exact ⟨0, by simp⟩
    | succ n =>
      by_cases ha : P a = true
      · obtain ⟨k, hk⟩ := ih n
        exact ⟨k + 1, by simp [List.filter_cons, ha, hk]⟩
      · obtain ⟨k, hk⟩ := ih (n + 1)
        exact ⟨k + 1, by simp [List.filter_cons, ha, hk]⟩

/-- The suggestions computed by the `input` listener on a query that is not blank. -/
theorem onInput_filteredProducts (L : CaseMap) (PRODUCTS : List JSString) (w : Widget)
    (raw : JSString) (hq : trim raw ≠ []) :
    (onInput L PRODUCTS w raw).filteredProducts =
      (PRODUCTS.filter (fun product =>
        includes (L.toLowerCase product) (L.toLowerCase (trim raw)))).take 10 := by
  have h1 : ¬ (trim raw).length < 1 := by
    have := List.length_pos.mpr hq
    omega
  unfold onInput
  simp only [h1, if_false]
  split <;> rfl

/-- C4: for a non-blank query the suggestion set is the first 10 catalog entries, in catalog
order, whose lowercase form contains the lowercase trimmed query: at most 10 entries, a
subsequence of the catalog, each containing the query, and made of every match of some
initial stretch of the catalog, so no earlier match is skipped.  For the catalog
Bleach, Baking Soda, Ammonia and the query `ba` it is Baking Soda alone. -/
theorem onInput_suggestions (L : CaseMap) (PRODUCTS : List JSString) (w : Widget)
    (raw : JSString) (hq : trim raw ≠ []) :
    (onInput L PRODUCTS w raw).filteredProducts =
      (PRODUCTS.filter (fun product =>
        includes (L.toLowerCase product) (L.toLowerCase (trim raw)))).take 10 ∧
    (onInput L PRODUCTS w raw).filteredProducts.length ≤ 10 ∧
    (onInput L PRODUCTS w raw).filteredProducts.Sublist PRODUCTS ∧
    (∀ product ∈ (onInput L PRODUCTS w raw).filteredProducts,
      L.toLowerCase (trim raw) <:+: L.toLowerCase product) ∧
    (∃ k, (onInput L PRODUCTS w raw).filteredProducts =
      (PRODUCTS.take k).filter (fun product =>
        includes (L.toLowerCase product) (L.toLowerCase (trim raw)))) ∧
    (onInput L [js "Bleach", js "Baking Soda", js "Ammonia"] w (js "ba")).filteredProducts
      = [js "Baking Soda"] := by
  rw [onInput_filteredProducts L PRODUCTS w raw hq]
  refine ⟨rfl, ?_, ?_, ?_, take_filter_eq_filter_take _ _ _, ?_⟩
  · simp [List.length_take]
  · exact (List.take_sublist _ _).trans (List.filter_sublist _)
  · intro product hp
    have := List.mem_of_mem_take hp
    rw [List.mem_filter] at this
    exact (includes_iff _ _).mp this.2
  · have hba : trim (js "ba") = js "ba" := by decide
    rw [onInput_filteredProducts L _ w (js "ba") (by rw [hba]; decide), hba,
      L.toLowerCase_ascii (js "ba") (by decide)]
    simp only [List.filter_cons, List.filter_nil,
      L.toLowerCase_ascii (js "Bleach") (by decide),
      L.toLowerCase_ascii (js "Baking Soda") (by decide),
      L.toLowerCase_ascii (js "Ammonia") (by decide)]
    decide

theorem onInput_suggestions_witness :
    trim (js " SO ") ≠ [] ∧
    (onInput asciiCase [js "Bleach", js "Baking Soda", js "Soap"] ⟨some 0, [], [], false⟩
      (js " SO ")).filteredProducts = [js "Baking Soda", js "Soap"] :=
  ⟨by decide,
    (onInput_suggestions asciiCase [js "Bleach", js "Baking Soda", js "Soap"]
      ⟨some 0, [], [], false⟩ (js " SO ") (by decide)).1.trans (by decide)⟩

/-! ## Keyboard navigation -/

theorem arrowDown_eq (n : Nat) (i : Int) (hn : 1 ≤ n) (hlo : -1 ≤ i) :
    arrowDown n (some i) = some ((i + 1) % (n : Int)) := by
  have h0 : n ≠ 0 := by omega
  simp only [arrowDown, h0, if_false]
  rw [Int.tmod_eq_emod (by omega) (by omega)]

theorem press_range (n : Nat) (i : Int) (key : Arrow) (hn : 1 ≤ n) (hlo : -1 ≤ i)
    (hhi : i < n) : ∃ j, press n (some i) key = some j ∧ 0 ≤ j ∧ j < n := by
  cases key with
  | down =>
    refine ⟨(i + 1) % (n : Int), arrowDown_eq n i hn hlo, ?_, ?_⟩
    · exact Int.emod_nonneg _ (by omega)
    · exact Int.emod_lt_of_pos _ (by omega)
  | up =>
    by_cases h : i ≤ 0
    · exact ⟨(n : Int) - 1, by simp [press, arrowUp, h], by omega, by omega⟩
    · exact ⟨i - 1, by simp [press, arrowUp, h], by omega, by omega⟩

theorem pressAll_range (n : Nat) (keys : List Arrow) (i : Int) (hn : 1 ≤ n)
    (hlo : -1 ≤ i) (hhi : i < n) :
    ∃ j, pressAll n (some i) keys = some j ∧ -1 ≤ j ∧ j < n ∧ (0 ≤ i → 0 ≤ j) := by
  induction keys generalizing i with
  | nil => exact ⟨i, rfl, hlo, hhi, id⟩
  | cons key keys ih =>
    obtain ⟨j, hj, hj0, hjn⟩ := press_range n i key hn hlo hhi
    obtain ⟨m, hm, hm1, hmn, hm0⟩ := ih j (by omega) hjn
    refine ⟨m, ?_, hm1, hmn, fun _ => hm0 hj0⟩
    simp only [pressAll, List.foldl_cons] at hm ⊢
    rw [hj]
    exact hm

theorem arrowDown_iterate (n : Nat) (k : Nat) (i : Int) (hn : 1 ≤ n) (hlo : 0 ≤ i)
    (hhi : i < n) : (arrowDown n)^[k] (some i) = some ((i + k) % (n : Int)) := by
  induction k generalizing i with
  | zero => simp [Int.emod_eq_of_lt hlo hhi]
  | succ k ih =>
    rw [Function.iterate_succ_apply, arrowDown_eq n i hn (by omega),
      ih ((i + 1) % (n : Int)) (Int.emod_nonneg _ (by omega)) (Int.emod_lt_of_pos _ (by omega)),
      Int.emod_add_emod]
    congr 2
    push_cast
    ring

/-- C10: for `n ≥ 1` suggestions and `-1 ≤ i < n`, ArrowDown moves the index to
`(i + 1) mod n` (from `n - 1` to 0), ArrowUp moves it to `n - 1` when `i ≤ 0` and to `i - 1`
otherwise; after one or more presses the index lies in `[0, n)`, and from a highlighted
index it stays there, ArrowUp undoes ArrowDown, and `n` presses of ArrowDown come back to
the same index. -/
theorem arrows_wrap (n : Nat) (i : Int) (hn : 1 ≤ n) (hlo : -1 ≤ i) (hhi : i < n) :
    arrowDown n (some i) = some ((i + 1) % (n : Int)) ∧
    (i = (n : Int) - 1 → arrowDown n (some i) = some 0) ∧
    arrowUp n (some i) = some (if i ≤ 0 then (n : Int) - 1 else i - 1) ∧
    (i = 0 → arrowUp n (some i) = some ((n : Int) - 1)) ∧
    (∀ (keys : List Arrow) (key : Arrow),
      ∃ j, pressAll n (some i) (keys ++ [key]) = some j ∧ 0 ≤ j ∧ j < n) ∧
    (0 ≤ i →
      (∀ keys : List Arrow, ∃ j, pressAll n (some i) keys = some j ∧ 0 ≤ j ∧ j < n) ∧
      arrowUp n (arrowDown n (some i)) = some i ∧
      (arrowDown n)^[n] (some i) = some i) := by
  have hdown := arrowDown_eq n i hn hlo
  refine ⟨hdown, ?_, ?_, ?_, ?_, ?_⟩
  · intro h
    rw [hdown, h]
    simp
  · by_cases h : i ≤ 0 <;> simp [arrowUp, h]
  · intro h
    simp [arrowUp, h]
  · intro keys key
    obtain ⟨j, hj, hj1, hjn, _⟩ := pressAll_range n keys i hn hlo hhi
    obtain ⟨m, hm, hm0, hmn⟩ := press_range n j key hn hj1 hjn
    refine ⟨m, ?_, hm0, hmn⟩
    simp only [pressAll, List.foldl_append, List.foldl_cons, List.foldl_nil] at hj ⊢
    rw [hj]
    exact hm
  · intro h0
    refine ⟨?_, ?_, ?_⟩
    · intro keys
      obtain ⟨j, hj, _, hjn, hj0⟩ := pressAll_range n keys i hn hlo hhi
      exact ⟨j, hj, hj0 h0, hjn⟩
    · rw [hdown]
      by_cases hlast : i = (n : Int) - 1
      · have : (i + 1) % (n : Int) = 0 := by
          rw [hlast]
          simp
        rw [this]
        simp [arrowUp, hlast]
      · have hlt : i + 1 < n := by omega
        rw [Int.emod_eq_of_lt (by omega) hlt]
        have : ¬ i + 1 ≤ 0 := by omega
        simp [arrowUp, this]
    · rw [arrowDown_iterate n n i hn h0 hhi, Int.add_emod_self, Int.emod_eq_of_lt h0 hhi]

theorem arrows_wrap_witness :
    arrowDown 3 (some 2) = some 0 ∧ arrowUp 3 (some 0) = some 2 ∧
    arrowDown 3 (some (-1)) = some 0 ∧ arrowUp 3 (some (-1)) = some 2 :=
  ⟨(arrows_wrap 3 2 (by decide) (by decide) (by decide)).2.1 (by decide),
    (arrows_wrap 3 0 (by decide) (by decide) (by decide)).2.2.2.1 rfl,
    by decide, by decide⟩

end ChemSafety
